import Mathlib

/-!
# A verification development for `criaterm.py`

This file gives a shallow embedding, in Lean 4, of the core of the
`criaterm` terminal-UI toolkit (`src/criaterm.py`): the color/style model,
the styled-string type `AnsiStr` with its run representation, the character
grid `CharGrid`, the width classifier `_wcwidth`, and the terminal-input
decoder `_read`.  Python machine integers are modelled as `Int`/`Nat`,
Python strings as Lean `String` (a wrapper around `List Char`, matching
Python's sequence-of-codepoints semantics), and fallible operations
(Python `IndexError` on out-of-range list assignment) as `Option`.

The theorems at the end of the file settle the specification claims
against these definitions.
-/

namespace Criaterm

/-! ## Colors (`criaterm.py` lines 800-949) -/

/-- `NamedColor` enum (lines 868-895).  Each member carries a foreground and
a background SGR code; the numbers are transcribed from the source
(note `BRIGHT_YELLOW = auto(), 93, 43` in the source). -/
inductive NamedColor where
  | BLACK | RED | GREEN | YELLOW | BLUE | MAGENTA | CYAN | WHITE
  | DEFAULT
  | BRIGHT_BLACK | BRIGHT_RED | BRIGHT_GREEN | BRIGHT_YELLOW
  | BRIGHT_BLUE | BRIGHT_MAGENTA | BRIGHT_CYAN | BRIGHT_WHITE
deriving DecidableEq

/-- The `fg` field set by `NamedColor.__init__`. -/
def NamedColor.fg : NamedColor → Nat
  | .BLACK => 30 | .RED => 31 | .GREEN => 32 | .YELLOW => 33
  | .BLUE => 34 | .MAGENTA => 35 | .CYAN => 36 | .WHITE => 37
  | .DEFAULT => 39
  | .BRIGHT_BLACK => 90 | .BRIGHT_RED => 91 | .BRIGHT_GREEN => 92
  | .BRIGHT_YELLOW => 93 | .BRIGHT_BLUE => 94 | .BRIGHT_MAGENTA => 95
  | .BRIGHT_CYAN => 96 | .BRIGHT_WHITE => 97

/-- The `bg` field set by `NamedColor.__init__`.  The source assigns
`BRIGHT_YELLOW` the background code `43` (line 881). -/
def NamedColor.bg : NamedColor → Nat
  | .BLACK => 40 | .RED => 41 | .GREEN => 42 | .YELLOW => 43
  | .BLUE => 44 | .MAGENTA => 45 | .CYAN => 46 | .WHITE => 47
  | .DEFAULT => 49
  | .BRIGHT_BLACK => 100 | .BRIGHT_RED => 101 | .BRIGHT_GREEN => 102
  | .BRIGHT_YELLOW => 43 | .BRIGHT_BLUE => 104 | .BRIGHT_MAGENTA => 105
  | .BRIGHT_CYAN => 106 | .BRIGHT_WHITE => 107

/-- `check_invalid_byte` (lines 863-865).  The Python function *returns*
the `ValueError` (it does not raise it); we model the produced error as an
`Option String`.  `none` corresponds to Python's implicit `return None`. -/
def check_invalid_byte (tag : String) (value : Int) : Option String :=
  if ¬ (0 ≤ value ∧ value ≤ 255) then
    some ("Invalid " ++ tag ++ " value, must in range from 0 to 255.")
  else
    none

/-- `RgbColor` dataclass (lines 843-852).  Components are plain Python ints. -/
structure RgbColor where
  red : Int
  green : Int
  blue : Int
deriving DecidableEq

/-- `RgbColor(r, g, b)`: `__post_init__` calls `check_invalid_byte` on each
component, but `check_invalid_byte` *returns* its `ValueError` instead of
raising it and `__post_init__` discards the returned value, so construction
always succeeds, whatever the components are. -/
def RgbColor.make (red green blue : Int) : RgbColor :=
  let _ := check_invalid_byte "red" red
  let _ := check_invalid_byte "green" green
  let _ := check_invalid_byte "blue" blue
  ⟨red, green, blue⟩

/-- `FixedColor` dataclass (lines 855-860). -/
structure FixedColor where
  value : Int
deriving DecidableEq

/-- `FixedColor(value)`: same situation as `RgbColor` — the check's result
is discarded, construction always succeeds. -/
def FixedColor.make (value : Int) : FixedColor :=
  let _ := check_invalid_byte "fixed color" value
  ⟨value⟩

/-- The union `NamedColor | FixedColor | RgbColor` wrapped by `Color`. -/
inductive ColorValue where
  | named (c : NamedColor)
  | fixedCol (c : FixedColor)
  | rgbCol (c : RgbColor)
deriving DecidableEq

/-- `Color` dataclass (lines 800-840). -/
structure Color where
  value : ColorValue
deriving DecidableEq

/-- `Color.fg_sgr` (lines 805-816). -/
def Color.fg_sgr (c : Color) : String :=
  match c.value with
  | .named n => if n ≠ NamedColor.DEFAULT then toString n.fg else ""
  | .fixedCol f => "38;5;" ++ toString f.value
  | .rgbCol r => "38;2;" ++ toString r.red ++ ";" ++ toString r.green ++ ";" ++ toString r.blue

/-- `Color.bg_sgr` (lines 818-829). -/
def Color.bg_sgr (c : Color) : String :=
  match c.value with
  | .named n => if n ≠ NamedColor.DEFAULT then toString n.bg else ""
  | .fixedCol f => "48;5;" ++ toString f.value
  | .rgbCol r => "48;2;" ++ toString r.red ++ ";" ++ toString r.green ++ ";" ++ toString r.blue

/-- `rgb(r, g, b)` (lines 898-907). -/
def rgb (r g b : Int) : Color := ⟨.rgbCol (RgbColor.make r g b)⟩

/-- `fixed(color)` (lines 910-919). -/
def fixed (color : Int) : Color := ⟨.fixedCol (FixedColor.make color)⟩

/-! ## Style (`criaterm.py` lines 691-759) -/

/-- `Style` dataclass (lines 691-705): all fields default to
`None`/`False`. -/
structure Style where
  fg : Option Color := none
  bg : Option Color := none
  bold : Bool := false
  italic : Bool := false
  underline : Bool := false
  blink : Bool := false
  reverse : Bool := false
  strikethrough : Bool := false
deriving DecidableEq

/-- `Style.update` (lines 707-727): `fg`/`bg` are replaced only when set in
`other`; the boolean attributes are OR-combined. -/
def Style.update (s other : Style) : Style :=
  { fg := match other.fg with | some c => some c | none => s.fg
    bg := match other.bg with | some c => some c | none => s.bg
    bold := s.bold || other.bold
    italic := s.italic || other.italic
    underline := s.underline || other.underline
    blink := s.blink || other.blink
    reverse := s.reverse || other.reverse
    strikethrough := s.strikethrough || other.strikethrough }

/-- `';'.join(filter(None, codes))`: drop the empty strings, join the rest
with `;`. -/
def joinCodes (codes : List String) : String :=
  String.intercalate ";" (codes.filter (fun c => c ≠ ""))

/-- `Style.sgr` (lines 729-744). -/
def Style.sgr (s : Style) : String :=
  let bold := if s.bold then "1" else ""
  let italic := if s.italic then "3" else ""
  let underline := if s.underline then "4" else ""
  let blink := if s.blink then "5" else ""
  let reverse := if s.reverse then "7" else ""
  let strikethrough := if s.strikethrough then "9" else ""
  let fg := match s.fg with | some c => c.fg_sgr | none => ""
  let bg := match s.bg with | some c => c.bg_sgr | none => ""
  joinCodes [bold, italic, underline, blink, reverse, strikethrough, fg, bg]

/-- `on(color)` (lines 922-931); Lean reserves the identifier `on` for
notation, hence the name `onColor`. -/
def onColor (color : Color) : Style := { bg := some color }

/-! ## Width classifier (`criaterm.py` lines 966-1119) -/

/-- The `WIDE` table (lines 997-1119): sorted inclusive ranges of wide
codepoints, transcribed verbatim from the source. -/
def WIDE : List (Nat × Nat) := [
  (0x01100, 0x0115f),
  (0x0231a, 0x0231b),
  (0x02329, 0x0232a),
  (0x023e9, 0x023ec),
  (0x023f0, 0x023f0),
  (0x023f3, 0x023f3),
  (0x025fd, 0x025fe),
  (0x02614, 0x02615),
  (0x02648, 0x02653),
  (0x0267f, 0x0267f),
  (0x02693, 0x02693),
  (0x026a1, 0x026a1),
  (0x026aa, 0x026ab),
  (0x026bd, 0x026be),
  (0x026c4, 0x026c5),
  (0x026ce, 0x026ce),
  (0x026d4, 0x026d4),
  (0x026ea, 0x026ea),
  (0x026f2, 0x026f3),
  (0x026f5, 0x026f5),
  (0x026fa, 0x026fa),
  (0x026fd, 0x026fd),
  (0x02705, 0x02705),
  (0x0270a, 0x0270b),
  (0x02728, 0x02728),
  (0x0274c, 0x0274c),
  (0x0274e, 0x0274e),
  (0x02753, 0x02755),
  (0x02757, 0x02757),
  (0x02795, 0x02797),
  (0x027b0, 0x027b0),
  (0x027bf, 0x027bf),
  (0x02b1b, 0x02b1c),
  (0x02b50, 0x02b50),
  (0x02b55, 0x02b55),
  (0x02e80, 0x02e99),
  (0x02e9b, 0x02ef3),
  (0x02f00, 0x02fd5),
  (0x02ff0, 0x03029),
  (0x03030, 0x0303e),
  (0x03041, 0x03096),
  (0x0309b, 0x030ff),
  (0x03105, 0x0312f),
  (0x03131, 0x0318e),
  (0x03190, 0x031e3),
  (0x031ef, 0x0321e),
  (0x03220, 0x03247),
  (0x03250, 0x04dbf),
  (0x04e00, 0x0a48c),
  (0x0a490, 0x0a4c6),
  (0x0a960, 0x0a97c),
  (0x0ac00, 0x0d7a3),
  (0x0f900, 0x0faff),
  (0x0fe10, 0x0fe19),
  (0x0fe30, 0x0fe52),
  (0x0fe54, 0x0fe66),
  (0x0fe68, 0x0fe6b),
  (0x0ff01, 0x0ff60),
  (0x0ffe0, 0x0ffe6),
  (0x16fe0, 0x16fe3),
  (0x17000, 0x187f7),
  (0x18800, 0x18cd5),
  (0x18d00, 0x18d08),
  (0x1aff0, 0x1aff3),
  (0x1aff5, 0x1affb),
  (0x1affd, 0x1affe),
  (0x1b000, 0x1b122),
  (0x1b132, 0x1b132),
  (0x1b150, 0x1b152),
  (0x1b155, 0x1b155),
  (0x1b164, 0x1b167),
  (0x1b170, 0x1b2fb),
  (0x1f004, 0x1f004),
  (0x1f0cf, 0x1f0cf),
  (0x1f18e, 0x1f18e),
  (0x1f191, 0x1f19a),
  (0x1f200, 0x1f202),
  (0x1f210, 0x1f23b),
  (0x1f240, 0x1f248),
  (0x1f250, 0x1f251),
  (0x1f260, 0x1f265),
  (0x1f300, 0x1f320),
  (0x1f32d, 0x1f335),
  (0x1f337, 0x1f37c),
  (0x1f37e, 0x1f393),
  (0x1f3a0, 0x1f3ca),
  (0x1f3cf, 0x1f3d3),
  (0x1f3e0, 0x1f3f0),
  (0x1f3f4, 0x1f3f4),
  (0x1f3f8, 0x1f3fa),
  (0x1f400, 0x1f43e),
  (0x1f440, 0x1f440),
  (0x1f442, 0x1f4fc),
  (0x1f4ff, 0x1f53d),
  (0x1f54b, 0x1f54e),
  (0x1f550, 0x1f567),
  (0x1f57a, 0x1f57a),
  (0x1f595, 0x1f596),
  (0x1f5a4, 0x1f5a4),
  (0x1f5fb, 0x1f64f),
  (0x1f680, 0x1f6c5),
  (0x1f6cc, 0x1f6cc),
  (0x1f6d0, 0x1f6d2),
  (0x1f6d5, 0x1f6d7),
  (0x1f6dc, 0x1f6df),
  (0x1f6eb, 0x1f6ec),
  (0x1f6f4, 0x1f6fc),
  (0x1f7e0, 0x1f7eb),
  (0x1f7f0, 0x1f7f0),
  (0x1f90c, 0x1f93a),
  (0x1f93c, 0x1f945),
  (0x1f947, 0x1f9ff),
  (0x1fa70, 0x1fa7c),
  (0x1fa80, 0x1fa88),
  (0x1fa90, 0x1fabd),
  (0x1fabf, 0x1fac5),
  (0x1face, 0x1fadb),
  (0x1fae0, 0x1fae8),
  (0x1faf0, 0x1faf8),
  (0x20000, 0x2fffd),
  (0x30000, 0x3fffd)
]

/-- `_wcwidth(ch)` for a single character (lines 976-994).  The Python
function also accepts the empty string (returning 0); single characters are
the only inputs used by the grid and width code, so the embedding takes a
`Char`. -/
def wcwidthChar (ch : Char) : Int :=
  let ucs := ch.toNat
  if 32 ≤ ucs ∧ ucs < 0x7f then 1
  else if ucs < 32 ∨ (0x07f ≤ ucs ∧ ucs < 0x0a0) then -1
  else if WIDE.any (fun p => p.1 ≤ ucs ∧ ucs ≤ p.2) then 2
  else 1

/-- `_wcswidth(s)` (lines 970-973): sum of the per-character widths. -/
def wcswidthStr (s : String) : Int :=
  (s.data.map wcwidthChar).sum


/-! ## `cstr`: a styled string fragment (`criaterm.py` lines 762-797) -/

/-- `cstr` dataclass (lines 762-766): a plain string plus a `Style`.
Defaults: empty value, default style. -/
structure Cstr where
  value : String := ""
  style : Style := {}
deriving DecidableEq

/-- `cstr()` — the continuation placeholder stored after a wide character
in a grid line (empty value, default style). -/
def placeholderC : Cstr := {}

/-- `cstr(' ')` — the explicit space written when half of a wide character
is overwritten. -/
def spaceC : Cstr := { value := " " }

/-! ## `CharGrid` (`criaterm.py` lines 236-436)

A grid cell is `cstr | None` in Python: `none` is an absent (unwritten)
cell.  Python list item assignment `line[i] = x` raises `IndexError` when
`i` is out of range and resolves negative `i` from the end; `listSet` and
`pySet` model this with `Option`. -/

/-- A grid cell: `cstr | None`. -/
abbrev Cell := Option Cstr

/-- `l[i] = a` for a nonnegative index: fails (Python `IndexError`) when
`i >= len(l)`. -/
def listSet (l : List Cell) (i : Nat) (a : Cell) : Option (List Cell) :=
  if i < l.length then some (l.set i a) else none

/-- `l[i] = a` with Python index semantics: a negative `i` counts from the
end (`l[-1]` is the last element); out of range raises. -/
def pySet (l : List Cell) (i : Int) (a : Cell) : Option (List Cell) :=
  if i < 0 then
    if 0 ≤ (l.length : Int) + i then listSet l ((l.length : Int) + i).toNat a else none
  else
    listSet l i.toNat a

/-- `while len(line) <= n: line.append(None)` (lines 353-355 with
`n = col + len(s)`): extend the line with absent cells to length at least
`n + 1`. -/
def growLine (line : List Cell) (n : Nat) : List Cell :=
  line ++ List.replicate (n + 1 - line.length) (none : Cell)

/-- The write loop of `__setitem__` (lines 362-372), for a plain-`str`
source: place each character at `dest` as a one-character default-styled
`cstr`; a width-2 character is followed by a continuation placeholder and
advances `dest` by 2, anything else advances by 1.  Returns the line and
the final `dest`. -/
def writeChars : List Cell → Nat → List Char → Option (List Cell × Nat)
  | line, dest, [] => some (line, dest)
  | line, dest, c :: cs => do
    let line ← listSet line dest (some { value := String.singleton c })
    if wcwidthChar c = 2 then
      let line ← listSet line (dest + 1) (some placeholderC)
      writeChars line (dest + 2) cs
    else
      writeChars line (dest + 1) cs

/-- The per-line body of `CharGrid.__setitem__` (lines 352-376) for a
plain-`str` value `s` (the `AnsiStr` branch differs only in the style
carried by each written cell): grow the line, break a wide character under
the write start, run the write loop, break a wide character just after the
write end.  The empty-`s` early return is at the grid level (line 340). -/
def setLineChars (line : List Cell) (col : Nat) (s : List Char) : Option (List Cell) := do
  let line := growLine line (col + s.length)
  -- `if line[col] == cstr(): line[col - 1] = cstr(' ')`
  let line ← if line.getD col none = some placeholderC then
      pySet line ((col : Int) - 1) (some spaceC)
    else
      some line
  let (line, dest) ← writeChars line col s
  -- `if dest < len(line) and line[dest] == cstr(): line[dest] = cstr(' ')`
  if dest < line.length ∧ line.getD dest none = some placeholderC then
    listSet line dest (some spaceC)
  else
    some line

/-- `while len(self.lines) <= lin: self.lines.append([])` (lines 349-350). -/
def growRows (g : List (List Cell)) (lin : Nat) : List (List Cell) :=
  g ++ List.replicate (lin + 1 - g.length) ([] : List Cell)

/-- `CharGrid.__setitem__` (lines 335-376) for a plain-`str` value:
empty string is a no-op; otherwise grow the rows and write into row
`lin`. -/
def setGrid (g : List (List Cell)) (lin col : Nat) (s : String) : Option (List (List Cell)) := do
  if s.length = 0 then
    return g
  let g := growRows g lin
  let line ← (setLineChars (g.getD lin []) col s.data)
  return g.set lin line

/-- The per-line part of `CharGrid.width` (lines 413-418): `last + 1` where
`last` is the greatest index holding a non-absent cell. -/
def lineLastContent (line : List Cell) : Nat :=
  (line.reverse.dropWhile (fun c => c = (none : Cell))).length

/-- `CharGrid.width` (lines 401-419). -/
def gridWidth (g : List (List Cell)) : Nat :=
  g.foldl (fun w line => max w (lineLastContent line)) 0

/-- One line of `CharGrid.print_content` (lines 391-398): emit `width`
cells, a space for an absent cell (or one past the end of the line), the
cell's value otherwise (a continuation placeholder contributes nothing). -/
def renderRow (line : List Cell) (width : Nat) : String :=
  (List.range width).foldl
    (fun s i => s ++ match line.getD i none with
      | none => " "
      | some ch => ch.value)
    ""


/-! ## `AnsiStr` (`criaterm.py` lines 439-684)

`AnsiStr` holds an ordered list of `cstr` runs plus a cached codepoint
count.  The variadic constructor takes values of type
`str | cstr | AnsiStr`, modelled by `Arg`. -/

/-- `AnsiStr` dataclass fields (lines 483-484). -/
structure AnsiStr where
  data : List Cstr
  length : Nat
deriving DecidableEq

/-- The canonical empty value `AnsiStr()`. -/
def ansiEmpty : AnsiStr := ⟨[], 0⟩

/-- One variadic argument of `AnsiStr.__init__`: `str | cstr | AnsiStr`. -/
inductive Arg where
  | strArg (v : String)
  | cstrArg (v : Cstr)
  | ansiArg (v : AnsiStr)

/-- `data.append(c)` followed by the merge of the last two runs when they
share a style (lines 516-529 of `__init__`). -/
def pushCstr : List Cstr → Cstr → List Cstr
  | [], c => [c]
  | [d], c => if d.style = c.style then [⟨d.value ++ c.value, d.style⟩] else [d, c]
  | d :: e :: ds, c => d :: pushCstr (e :: ds) c

/-- `data.extend(s.data)` with the boundary merge of lines 502-514 of
`__init__`: when the accumulated list is nonempty and its last run has the
same style as the first run of `sdata`, those two runs merge. -/
def pushAnsi : List Cstr → List Cstr → List Cstr
  | [], sdata => sdata
  | [d], [] => [d]
  | [d], s0 :: srest =>
      if d.style = s0.style then ⟨d.value ++ s0.value, d.style⟩ :: srest
      else d :: s0 :: srest
  | d :: e :: ds, sdata => d :: pushAnsi (e :: ds) sdata

/-- The loop of `AnsiStr.__init__` (lines 489-532): falsy (empty)
arguments are skipped; a `str` argument is wrapped in a default-styled
`cstr`; the codepoint count accumulates in the second component. -/
def ansiMkAux : List Cstr → Nat → List Arg → List Cstr × Nat
  | data, n, [] => (data, n)
  | data, n, .strArg v :: rest =>
      if v = "" then ansiMkAux data n rest
      else ansiMkAux (pushCstr data ⟨v, {}⟩) (n + v.length) rest
  | data, n, .cstrArg v :: rest =>
      if v.value = "" then ansiMkAux data n rest
      else ansiMkAux (pushCstr data v) (n + v.value.length) rest
  | data, n, .ansiArg t :: rest =>
      if t.length = 0 then ansiMkAux data n rest
      else ansiMkAux (pushAnsi data t.data) (n + t.length) rest

/-- `AnsiStr(*args)` (lines 489-532). -/
def ansiMk (args : List Arg) : AnsiStr :=
  let p := ansiMkAux [] 0 args
  ⟨p.1, p.2⟩

/-- `AnsiStr.content` (lines 534-548): concatenation of the run texts
(the `isinstance(s, str)` branch is dead — `data` always holds `cstr`). -/
def AnsiStr.content (t : AnsiStr) : String :=
  t.data.foldl (fun r s => r ++ s.value) ""

/-- `AnsiStr.width` (lines 550-566). -/
def AnsiStr.dispWidth (t : AnsiStr) : Int :=
  (t.data.map (fun s => wcswidthStr s.value)).sum

/-- The argument of `__truediv__`: `Color | Style`. -/
inductive ColorOrStyle where
  | colorArg (c : Color)
  | styleArg (s : Style)

/-- `cstr.__truediv__` (lines 768-772): a bare color replaces the
foreground; a style is merged via `Style.update`. -/
def Cstr.div (c : Cstr) (x : ColorOrStyle) : Cstr :=
  match x with
  | .colorArg col => ⟨c.value, { c.style with fg := some col }⟩
  | .styleArg st => ⟨c.value, c.style.update st⟩

/-- `AnsiStr.__truediv__` (lines 634-644): update every run's style and
rebuild through the constructor. -/
def AnsiStr.div (t : AnsiStr) (x : ColorOrStyle) : AnsiStr :=
  ansiMk (t.data.map (fun c => .cstrArg (c.div x)))

/-- `AnsiStr.__add__` (lines 619-629): `AnsiStr(self, s)`. -/
def AnsiStr.add (a : AnsiStr) (s : Arg) : AnsiStr :=
  ansiMk [.ansiArg a, s]

/-- The loop of `AnsiStr.__mul__` (lines 646-664):
`s = AnsiStr(); for _ in range(0, n): s = AnsiStr(*(s.data + self.data))`. -/
def mulAux (t : AnsiStr) : Nat → AnsiStr
  | 0 => ansiEmpty
  | k + 1 =>
      let s := mulAux t k
      ansiMk ((s.data ++ t.data).map .cstrArg)

/-- `AnsiStr.__mul__`: `range(0, n)` is empty for `n <= 0`. -/
def AnsiStr.mul (t : AnsiStr) (n : Int) : AnsiStr :=
  mulAux t n.toNat

/-- One bound of `slice(a, b).indices(n)` for step 1: a negative bound
counts from the end clamped below at 0; a nonnegative bound is clamped
above at `n`. -/
def pyBound (v : Int) (n : Nat) : Nat :=
  if v < 0 then ((n : Int) + v).toNat else min v.toNat n

/-- Python `s[a:b]` for `0 <= a` and `0 <= b` (`b` clamped at the
length). -/
def strSub (s : String) (a b : Nat) : String :=
  ⟨(s.data.take b).drop a⟩

/-- The first loop of `AnsiStr.__getitem__` (lines 602-607): skip the runs
that end at or before `start`, shifting `start` and `stop`. -/
def sliceSkip : List Cstr → Int → Int → List Cstr × Int × Int
  | [], start, stop => ([], start, stop)
  | c :: cs, start, stop =>
      if start - (c.value.length : Int) > 0 then
        sliceSkip cs (start - c.value.length) (stop - c.value.length)
      else (c :: cs, start, stop)

/-- The second loop of `AnsiStr.__getitem__` (lines 609-615): collect
`self.data[i][max(0, start):stop]` while `stop > 0`. -/
def sliceTake : List Cstr → Int → Int → List Cstr
  | [], _, _ => []
  | c :: cs, start, stop =>
      if stop > 0 then
        ⟨strSub c.value (max 0 start).toNat stop.toNat, c.style⟩ ::
          sliceTake cs (start - c.value.length) (stop - c.value.length)
      else []

/-- `AnsiStr.__getitem__` after index normalization (lines 597-617):
`start >= stop` yields the empty value, otherwise walk, slice and rebuild
through the constructor. -/
def ansiSliceNorm (t : AnsiStr) (start stop : Nat) : AnsiStr :=
  if start ≥ stop then ansiEmpty
  else
    let p := sliceSkip t.data start stop
    ansiMk ((sliceTake p.1 p.2.1 p.2.2).map .cstrArg)

/-- `AnsiStr.__getitem__` with a slice argument `t[a:b]` (step 1):
bounds are normalized by `slice(a, b).indices(len(self))`. -/
def ansiGetSlice (t : AnsiStr) (a b : Int) : AnsiStr :=
  ansiSliceNorm t (pyBound a t.length) (pyBound b t.length)

/-- `AnsiStr.__getitem__` with an int argument (lines 589-593):
`t[-1]` uses `slice(-1, None)`, any other `i` uses `slice(i, i + 1)`. -/
def ansiGetInt (t : AnsiStr) (i : Int) : AnsiStr :=
  if i = -1 then ansiSliceNorm t (pyBound (-1) t.length) t.length
  else ansiSliceNorm t (pyBound i t.length) (pyBound (i + 1) t.length)

/-! ### The run invariants -/

/-- Total codepoint count of a run list. -/
def sumLen (l : List Cstr) : Nat := (l.map (fun c => c.value.length)).sum

/-- No two adjacent runs share a style. -/
def Merged (l : List Cstr) : Prop := l.Chain' (fun a b => a.style ≠ b.style)

/-- No stored run is empty. -/
def NoEmpty (l : List Cstr) : Prop := ∀ c ∈ l, c.value.length ≠ 0

/-- The full representation invariant of an `AnsiStr` value: merged,
no empty runs, and the cached `length` is the total codepoint count. -/
def WF (t : AnsiStr) : Prop := Merged t.data ∧ NoEmpty t.data ∧ t.length = sumLen t.data

/-- The `AnsiStr`-typed arguments of an argument list. -/
def argAnsis (l : List Arg) : List AnsiStr :=
  l.filterMap (fun a => match a with | .ansiArg t => some t | _ => none)

/-- The `AnsiStr` values produced by any sequence of construction,
concatenation, slicing, indexing, repetition and overlay. -/
inductive Reach : AnsiStr → Prop where
  | mk (args : List Arg) (h : ∀ t ∈ argAnsis args, Reach t) : Reach (ansiMk args)
  | addR (a : AnsiStr) (s : Arg) (ha : Reach a)
      (hs : ∀ t ∈ argAnsis [s], Reach t) : Reach (a.add s)
  | sliceR (a : AnsiStr) (i j : Int) (ha : Reach a) : Reach (ansiGetSlice a i j)
  | idxR (a : AnsiStr) (i : Int) (ha : Reach a) : Reach (ansiGetInt a i)
  | mulR (a : AnsiStr) (n : Int) (ha : Reach a) : Reach (a.mul n)
  | overR (a : AnsiStr) (x : ColorOrStyle) (ha : Reach a) : Reach (a.div x)

/-! ## Terminal input (`criaterm.py` lines 1126-1239)

The pull source `next()` is modelled as a list of pending characters:
`next()` pops the head, and returns `''` ("no more input") on the empty
list.  The decoder's result `str | SpecialKey` (where `''` means "no
key") is modelled by `KeyRead`. -/

/-- `SpecialKey` enum (lines 1126-1169). -/
inductive SpecialKey where
  | ESC
  | CRTL_C | TAB | ENTER | BACKSPACE
  | UP | DOWN | RIGHT | LEFT
  | HOME | INSERT | DEL | END | PGUP | PGDOWN
  | F1 | F2 | F3 | F4 | F5 | F6 | F7 | F8 | F9 | F10 | F11 | F12
  | CRTL_UP | CRTL_DOWN | CRTL_RIGHT | CRTL_LEFT
  | CRTL_HOME | CRTL_INSERT | CRTL_DEL | CRTL_END | CRTL_PGUP | CRTL_PGDOWN
deriving DecidableEq

/-- The `seqs` list attached to each `SpecialKey` member. -/
def SpecialKey.seqs : SpecialKey → List String
  | .ESC => []
  | .CRTL_C => ["\x03"]
  | .TAB => ["\t"]
  | .ENTER => ["\n"]
  | .BACKSPACE => ["\x7f"]
  | .UP => ["[A", "OA"]
  | .DOWN => ["[B", "OB"]
  | .RIGHT => ["[C", "OC"]
  | .LEFT => ["[D", "OD"]
  | .HOME => ["[H", "OH", "[1~"]
  | .INSERT => ["[2~"]
  | .DEL => ["[3~"]
  | .END => ["[F", "OF", "[4~"]
  | .PGUP => ["[5~"]
  | .PGDOWN => ["[6~"]
  | .F1 => ["OP"]
  | .F2 => ["OQ"]
  | .F3 => ["OR"]
  | .F4 => ["OS"]
  | .F5 => ["[15~"]
  | .F6 => ["[17~"]
  | .F7 => ["[18~"]
  | .F8 => ["[19~"]
  | .F9 => ["[20~"]
  | .F10 => ["[21~"]
  | .F11 => ["[23~"]
  | .F12 => ["[24~"]
  | .CRTL_UP => ["[1;5A"]
  | .CRTL_DOWN => ["[1;5B"]
  | .CRTL_RIGHT => ["[1;5C"]
  | .CRTL_LEFT => ["[1;5D"]
  | .CRTL_HOME => ["[1;5H"]
  | .CRTL_INSERT => ["[2;5~"]
  | .CRTL_DEL => ["[3;5~"]
  | .CRTL_END => ["[1;5F"]
  | .CRTL_PGUP => ["[6;5~"]
  | .CRTL_PGDOWN => ["[5;5~"]

/-- The members of `SpecialKey`, in declaration order (iteration order of
`for key in SpecialKey`). -/
def specialKeyList : List SpecialKey :=
  [.ESC,
   .CRTL_C, .TAB, .ENTER, .BACKSPACE,
   .UP, .DOWN, .RIGHT, .LEFT,
   .HOME, .INSERT, .DEL, .END, .PGUP, .PGDOWN,
   .F1, .F2, .F3, .F4, .F5, .F6, .F7, .F8, .F9, .F10, .F11, .F12,
   .CRTL_UP, .CRTL_DOWN, .CRTL_RIGHT, .CRTL_LEFT,
   .CRTL_HOME, .CRTL_INSERT, .CRTL_DEL, .CRTL_END, .CRTL_PGUP, .CRTL_PGDOWN]

/-- `SpecialKey.get` (lines 1179-1184): first member whose `seqs` contains
`seq`; the Python function returns `''` ("no key") when none matches,
modelled as `none`. -/
def SpecialKey.get (seq : String) : Option SpecialKey :=
  specialKeyList.find? (fun key => seq ∈ key.seqs)

/-- The result of `_read`: `''` (no key), a literal character, or a
special key. -/
inductive KeyRead where
  | noKey
  | char (c : Char)
  | special (k : SpecialKey)
deriving DecidableEq

/-- Lift the result of `SpecialKey.get` into a `_read` result. -/
def ofGet : Option SpecialKey → KeyRead
  | some k => .special k
  | none => .noKey

/-- A digit-accumulating loop `while (ch := next()).isdigit(): seq += ch`
(lines 1229-1230 and 1236-1237): returns the accumulated digits, the
terminating character (`none` when the source ran out, i.e. `next()`
returned `''`), and the remaining source. -/
def readDigits : List Char → String × Option Char × List Char
  | [] => ("", none, [])
  | c :: cs =>
      if c.isDigit then
        let p := readDigits cs
        (String.singleton c ++ p.1, p.2.1, p.2.2)
      else ("", some c, cs)

/-- `seq + ch` where `ch` is `next()`'s result — `''` when the source is
exhausted contributes nothing. -/
def optStr : Option Char → String
  | none => ""
  | some c => String.singleton c

/-- `_read(next)` (lines 1191-1239) over a list-modelled source. -/
def pyRead : List Char → KeyRead
  | [] => .noKey
  | ch :: rest =>
    if ch ≠ '\x1b' then
      -- control keys, then literal characters
      if ch = '\x03' then .special .CRTL_C
      else if ch = '\t' then .special .TAB
      else if ch = '\r' ∨ ch = '\n' then .special .ENTER
      else if ch = '\x7f' ∨ ch = '\x08' then .special .BACKSPACE
      else if ch.toNat < 32 then .noKey
      else .char ch
    else
      match rest with
      | [] => .special .ESC  -- `next()` returned `''`, not in `['?', 'O', '[']`
      | ch2 :: rest2 =>
        if ch2 ∉ ['?', 'O', '['] then .special .ESC
        else if ch2 = '?' ∨ ch2 = 'O' then
          -- `SpecialKey.get(ch + next())`
          ofGet (SpecialKey.get (String.singleton ch2 ++ optStr rest2.head?))
        else
          match rest2 with
          | [] => ofGet (SpecialKey.get "[")  -- `next()` returned `''`, not a digit
          | c3 :: rest3 =>
            if ¬ c3.isDigit then ofGet (SpecialKey.get ("[" ++ String.singleton c3))
            else
              let p1 := readDigits rest3
              let seq1 := "[" ++ String.singleton c3 ++ p1.1
              match p1.2.1 with
              | none => ofGet (SpecialKey.get seq1)
              | some t =>
                if t ≠ ';' then ofGet (SpecialKey.get (seq1 ++ String.singleton t))
                else
                  let p2 := readDigits p1.2.2
                  let seq2 := seq1 ++ ";" ++ p2.1
                  ofGet (SpecialKey.get (seq2 ++ optStr p2.2.1))

/-! ## Claim theorems -/

/-- **C1** (code bug evidence).  The claim says out-of-range color
components make construction fail.  In the code, `check_invalid_byte`
*returns* its `ValueError` instead of raising it, and `__post_init__`
discards the returned value: at the failing input `rgb(256, 0, 0)` the
validator does produce an error, yet construction succeeds and the caller
receives a `Color` whose red component is 256. -/
theorem C1_invalid_component_accepted :
    rgb 256 0 0 = ⟨.rgbCol ⟨256, 0, 0⟩⟩ ∧
    (RgbColor.make 256 0 0).red = 256 ∧
    (check_invalid_byte "red" 256).isSome = true := by
  exact ⟨rfl, rfl, by decide⟩

/-- **C2** (code bug evidence).  The claim says `set(row, col, content)`
never fails for any content with any number of width-2 characters.  The
line is grown only to `col + len(content) + 1` cells, which cannot hold
two wide characters' continuation placeholders: writing `'🟥🟥'` at
`(0, 0)` of a fresh grid assigns index 3 of a 3-cell line — an
`IndexError` in Python, `none` in the embedding. -/
theorem C2_wide_write_fails :
    setGrid [] 0 0 "🟥🟥" = none := by
  decide

/-- **C4** (code bug evidence).  The claim says bright named background
colors emit codes 100–107.  The source's `NamedColor` table assigns
`BRIGHT_YELLOW` the background code 43 (the regular yellow background),
so a style whose background is bright yellow emits `"43"`. -/
theorem C4_bright_yellow_bg_code :
    Style.sgr (onColor ⟨.named .BRIGHT_YELLOW⟩) = "43" ∧
    Color.bg_sgr ⟨.named .BRIGHT_YELLOW⟩ = "43" ∧
    NamedColor.bg .BRIGHT_YELLOW = 43 := by
  exact ⟨rfl, rfl, rfl⟩

/-- **C5**: `Style.update` replaces `fg`/`bg` only when the overlay sets
them (the overlay's set value wins) and ORs every boolean attribute;
consequently the boolean composition is commutative and idempotent, and
after `base.update(o1).update(o2)` the colors are `o2`'s when set, else
`o1`'s when set, else `base`'s. -/
theorem C5_update_properties (base o1 o2 : Style) :
    ((base.update o1).fg = if o1.fg.isSome then o1.fg else base.fg) ∧
    ((base.update o1).bg = if o1.bg.isSome then o1.bg else base.bg) ∧
    ((base.update o1).bold = (base.bold || o1.bold)) ∧
    ((base.update o1).italic = (base.italic || o1.italic)) ∧
    ((base.update o1).underline = (base.underline || o1.underline)) ∧
    ((base.update o1).blink = (base.blink || o1.blink)) ∧
    ((base.update o1).reverse = (base.reverse || o1.reverse)) ∧
    ((base.update o1).strikethrough = (base.strikethrough || o1.strikethrough)) ∧
    ((base.update o1).bold = (o1.update base).bold) ∧
    ((base.update o1).italic = (o1.update base).italic) ∧
    ((base.update o1).underline = (o1.update base).underline) ∧
    ((base.update o1).blink = (o1.update base).blink) ∧
    ((base.update o1).reverse = (o1.update base).reverse) ∧
    ((base.update o1).strikethrough = (o1.update base).strikethrough) ∧
    ((base.update base).bold = base.bold) ∧
    ((base.update base).italic = base.italic) ∧
    ((base.update base).underline = base.underline) ∧
    ((base.update base).blink = base.blink) ∧
    ((base.update base).reverse = base.reverse) ∧
    ((base.update base).strikethrough = base.strikethrough) ∧
    (((base.update o1).update o2).fg =
      if o2.fg.isSome then o2.fg else if o1.fg.isSome then o1.fg else base.fg) ∧
    (((base.update o1).update o2).bg =
      if o2.bg.isSome then o2.bg else if o1.bg.isSome then o1.bg else base.bg) := by
  cases h1 : o1.fg <;> cases h2 : o1.bg <;> cases h3 : o2.fg <;> cases h4 : o2.bg <;>
    simp [Style.update, h1, h2, h3, h4, Bool.or_comm, Bool.or_self]

/-- **C7**: the key decoder yields Up for `ESC [ A`, Ctrl-Up for
`ESC [ 1 ; 5 A`, Interrupt for a lone `0x03`, "no key" for an empty
source and for the unlisted `ESC [ 9 9 ~`; and a first character other
than ESC is classified directly: `0x03` → Interrupt, TAB, CR/LF → Enter,
DEL/BS → Backspace, any other character below `0x20` → "no key", and
anything else is returned as the literal character. -/
theorem C7_key_decoder :
    pyRead ['\x1b', '[', 'A'] = .special .UP ∧
    pyRead ['\x1b', '[', '1', ';', '5', 'A'] = .special .CRTL_UP ∧
    pyRead ['\x03'] = .special .CRTL_C ∧
    pyRead [] = .noKey ∧
    pyRead ['\x1b', '[', '9', '9', '~'] = .noKey ∧
    (∀ rest, pyRead ('\x03' :: rest) = .special .CRTL_C) ∧
    (∀ rest, pyRead ('\t' :: rest) = .special .TAB) ∧
    (∀ c rest, c = '\r' ∨ c = '\n' → pyRead (c :: rest) = .special .ENTER) ∧
    (∀ c rest, c = '\x7f' ∨ c = '\x08' → pyRead (c :: rest) = .special .BACKSPACE) ∧
    (∀ c rest, c.toNat < 32 → c ≠ '\x03' → c ≠ '\t' → c ≠ '\r' → c ≠ '\n' →
      c ≠ '\x08' → c ≠ '\x1b' → pyRead (c :: rest) = .noKey) ∧
    (∀ c rest, 32 ≤ c.toNat → c ≠ '\x7f' → pyRead (c :: rest) = .char c) := by
  refine ⟨by decide, by decide, by decide, rfl, by decide,
    fun rest => rfl, fun rest => rfl, ?_, ?_, ?_, ?_⟩
  · rintro c rest (rfl | rfl) <;> rfl
  · rintro c rest (rfl | rfl) <;> rfl
  · intro c rest h32 h03 h09 h0d h0a h08 h1b
    have h7f : c ≠ '\x7f' := by rintro rfl; exact absurd h32 (by decide)
    simp [pyRead, h1b, h03, h09, h0d, h0a, h08, h7f, h32]
  · intro c rest h32 h7f
    have h1b : c ≠ '\x1b' := by rintro rfl; exact absurd h32 (by decide)
    have h03 : c ≠ '\x03' := by rintro rfl; exact absurd h32 (by decide)
    have h09 : c ≠ '\t' := by rintro rfl; exact absurd h32 (by decide)
    have h0d : c ≠ '\r' := by rintro rfl; exact absurd h32 (by decide)
    have h0a : c ≠ '\n' := by rintro rfl; exact absurd h32 (by decide)
    have h08 : c ≠ '\x08' := by rintro rfl; exact absurd h32 (by decide)
    have hlt : ¬ c.toNat < 32 := Nat.not_lt.mpr h32
    simp [pyRead, h1b, h03, h09, h0d, h0a, h08, h7f, hlt]

/-- Witness for C7: the Enter classification applied at a concrete
input. -/
theorem C7_key_decoder_witness :
    pyRead ['\r'] = .special .ENTER :=
  C7_key_decoder.2.2.2.2.2.2.2.1 '\r' [] (Or.inl rfl)

/-! ### Content lemmas (for C9) -/

/-- Reference function: concatenation of the run texts of a run list. -/
def valuesStr : List Cstr → String
  | [] => ""
  | c :: cs => c.value ++ valuesStr cs

lemma content_foldl (l : List Cstr) (r : String) :
    l.foldl (fun r s => r ++ s.value) r = r ++ valuesStr l := by
  induction l generalizing r with
  | nil => simp [valuesStr]
  | cons c cs ih => simp [valuesStr, List.foldl, ih, String.append_assoc]

lemma content_eq (t : AnsiStr) : t.content = valuesStr t.data := by
  simp [AnsiStr.content, content_foldl]

lemma valuesStr_pushCstr (l : List Cstr) (c : Cstr) :
    valuesStr (pushCstr l c) = valuesStr l ++ c.value := by
  induction l with
  | nil => simp [pushCstr, valuesStr]
  | cons d ds ih =>
    cases ds with
    | nil =>
      by_cases h : d.style = c.style <;>
        simp [pushCstr, h, valuesStr, String.append_assoc]
    | cons e es => simp only [pushCstr, valuesStr, ih, String.append_assoc]

lemma mkAux_content_cstrs (l : List Cstr) : ∀ data n,
    valuesStr (ansiMkAux data n (l.map .cstrArg)).1 = valuesStr data ++ valuesStr l := by
  induction l with
  | nil => intro data n; simp [ansiMkAux, valuesStr, List.map]
  | cons c cs ih =>
    intro data n
    by_cases h : c.value = ""
    · simp [ansiMkAux, h, ih, valuesStr]
    · simp [ansiMkAux, h, ih, valuesStr_pushCstr, valuesStr, String.append_assoc]

lemma div_value (c : Cstr) (x : ColorOrStyle) : (c.div x).value = c.value := by
  cases x <;> rfl

lemma valuesStr_map_div (l : List Cstr) (x : ColorOrStyle) :
    valuesStr (l.map (fun c => c.div x)) = valuesStr l := by
  induction l with
  | nil => rfl
  | cons c cs ih => simp [valuesStr, div_value, ih]

/-- **C9**: applying an overlay (a color or a style) to a styled string
does not change its plain content. -/
theorem C9_overlay_preserves_content (t : AnsiStr) (x : ColorOrStyle) :
    (t.div x).content = t.content := by
  rw [content_eq, content_eq, AnsiStr.div]
  have hmap : (t.data.map (fun c => Arg.cstrArg (c.div x)))
      = (t.data.map (fun c => c.div x)).map .cstrArg := by
    simp [List.map_map]
  rw [hmap]
  show valuesStr (ansiMkAux [] 0 ((t.data.map (fun c => c.div x)).map .cstrArg)).1 = _
  rw [mkAux_content_cstrs, valuesStr_map_div]
  simp [valuesStr]

/-! ### Run-invariant lemmas (for C6, C8, C10) -/

lemma str_length_ne_zero {v : String} (h : v ≠ "") : v.length ≠ 0 := by
  intro hl
  apply h
  cases v with
  | mk data =>
    cases data with
    | nil => rfl
    | cons a l => simp [String.length] at hl

lemma pushCstr_shape (e : Cstr) (es : List Cstr) (c : Cstr) :
    ∃ w rest, pushCstr (e :: es) c = ⟨w, e.style⟩ :: rest := by
  cases es with
  | nil =>
    by_cases h : e.style = c.style
    · exact ⟨e.value ++ c.value, [], by simp [pushCstr, h]⟩
    · exact ⟨e.value, [c], by simp [pushCstr, h]⟩
  | cons f fs => exact ⟨e.value, pushCstr (f :: fs) c, rfl⟩

lemma pushCstr_merged (c : Cstr) : ∀ l, Merged l → Merged (pushCstr l c)
  | [], _ => by simp [pushCstr, Merged]
  | [d], h => by
    by_cases hs : d.style = c.style
    · simp [pushCstr, hs, Merged]
    · simp [pushCstr, hs, Merged]
  | d :: e :: es, h => by
    have h1 : d.style ≠ e.style := (List.chain'_cons.mp h).1
    have h2 : Merged (e :: es) := (List.chain'_cons.mp h).2
    have ih := pushCstr_merged c (e :: es) h2
    obtain ⟨w, rest, hw⟩ := pushCstr_shape e es c
    show Merged (d :: pushCstr (e :: es) c)
    rw [hw] at ih ⊢
    exact List.chain'_cons.mpr ⟨h1, ih⟩

lemma pushCstr_noempty (c : Cstr) (hc : c.value.length ≠ 0) :
    ∀ l, NoEmpty l → NoEmpty (pushCstr l c)
  | [], _ => by
    intro x hx
    simp [pushCstr] at hx
    simpa [hx] using hc
  | [d], h => by
    intro x hx
    by_cases hs : d.style = c.style
    · simp [pushCstr, hs] at hx
      have hd := h d (by simp)
      simp [hx, String.length_append]
      omega
    · simp [pushCstr, hs] at hx
      rcases hx with rfl | rfl
      · exact h _ (by simp)
      · exact hc
  | d :: e :: es, h => by
    intro x hx
    rw [show pushCstr (d :: e :: es) c = d :: pushCstr (e :: es) c from rfl] at hx
    rcases List.mem_cons.mp hx with rfl | hx
    · exact h _ (by simp)
    · exact pushCstr_noempty c hc (e :: es) (fun y hy => h y (by simp [hy])) x hx

lemma pushCstr_sumLen (c : Cstr) : ∀ l, sumLen (pushCstr l c) = sumLen l + c.value.length
  | [] => by simp [pushCstr, sumLen]
  | [d] => by
    by_cases hs : d.style = c.style <;>
      simp [pushCstr, hs, sumLen, String.length_append]
  | d :: e :: es => by
    have ih := pushCstr_sumLen c (e :: es)
    show sumLen (d :: pushCstr (e :: es) c) = _
    simp [sumLen] at ih ⊢
    omega

lemma pushAnsi_shape (e : Cstr) (es : List Cstr) (s : List Cstr) :
    ∃ w rest, pushAnsi (e :: es) s = ⟨w, e.style⟩ :: rest := by
  cases es with
  | nil =>
    cases s with
    | nil => exact ⟨e.value, [], rfl⟩
    | cons s0 sr =>
      by_cases h : e.style = s0.style
      · exact ⟨e.value ++ s0.value, sr, by simp [pushAnsi, h]⟩
      · exact ⟨e.value, s0 :: sr, by simp [pushAnsi, h]⟩
  | cons f fs => exact ⟨e.value, pushAnsi (f :: fs) s, rfl⟩

lemma pushAnsi_merged : ∀ l, Merged l → ∀ s, Merged s → Merged (pushAnsi l s)
  | [], _, s, hs => hs
  | [d], h, [], _ => h
  | [d], _, s0 :: sr, hs => by
    by_cases hds : d.style = s0.style
    · show Merged (pushAnsi [d] (s0 :: sr))
      simp only [pushAnsi, if_pos hds]
      have := List.chain'_cons'.mp hs
      exact List.chain'_cons'.mpr ⟨by simpa [hds] using this.1, this.2⟩
    · show Merged (pushAnsi [d] (s0 :: sr))
      simp only [pushAnsi, if_neg hds]
      exact List.chain'_cons.mpr ⟨hds, hs⟩
  | d :: e :: es, h, s, hs => by
    have h1 : d.style ≠ e.style := (List.chain'_cons.mp h).1
    have h2 : Merged (e :: es) := (List.chain'_cons.mp h).2
    have ih := pushAnsi_merged (e :: es) h2 s hs
    obtain ⟨w, rest, hw⟩ := pushAnsi_shape e es s
    show Merged (d :: pushAnsi (e :: es) s)
    rw [hw] at ih ⊢
    exact List.chain'_cons.mpr ⟨h1, ih⟩

lemma pushAnsi_noempty : ∀ l, NoEmpty l → ∀ s, NoEmpty s → NoEmpty (pushAnsi l s)
  | [], _, s, hs => hs
  | [d], h, [], _ => h
  | [d], h, s0 :: sr, hs => by
    intro x hx
    by_cases hds : d.style = s0.style
    · simp [pushAnsi, hds] at hx
      rcases hx with rfl | hx
      · have := hs s0 (by simp)
        simp [String.length_append]
        omega
      · exact hs x (by simp [hx])
    · simp [pushAnsi, hds] at hx
      rcases hx with rfl | rfl | hx
      · exact h _ (by simp)
      · exact hs _ (by simp)
      · exact hs x (by simp [hx])
  | d :: e :: es, h, s, hs => by
    intro x hx
    rw [show pushAnsi (d :: e :: es) s = d :: pushAnsi (e :: es) s from rfl] at hx
    rcases List.mem_cons.mp hx with rfl | hx
    · exact h x (by simp)
    · exact pushAnsi_noempty (e :: es) (fun y hy => h y (by simp [hy])) s hs x hx

lemma pushAnsi_sumLen : ∀ l s, sumLen (pushAnsi l s) = sumLen l + sumLen s
  | [], s => by simp [pushAnsi, sumLen]
  | [d], [] => by simp [pushAnsi, sumLen]
  | [d], s0 :: sr => by
    by_cases hds : d.style = s0.style <;>
      simp [pushAnsi, hds, sumLen, String.length_append] <;> try omega
  | d :: e :: es, s => by
    have ih := pushAnsi_sumLen (e :: es) s
    show sumLen (d :: pushAnsi (e :: es) s) = _
    simp [sumLen] at ih ⊢
    omega

lemma argAnsis_cons_str (v : String) (rest : List Arg) :
    argAnsis (.strArg v :: rest) = argAnsis rest := rfl

lemma argAnsis_cons_cstr (v : Cstr) (rest : List Arg) :
    argAnsis (.cstrArg v :: rest) = argAnsis rest := rfl

lemma argAnsis_cons_ansi (t : AnsiStr) (rest : List Arg) :
    argAnsis (.ansiArg t :: rest) = t :: argAnsis rest := rfl

lemma mkAux_wf : ∀ args data n, Merged data → NoEmpty data → n = sumLen data →
    (∀ t ∈ argAnsis args, WF t) →
    Merged (ansiMkAux data n args).1 ∧ NoEmpty (ansiMkAux data n args).1 ∧
      (ansiMkAux data n args).2 = sumLen (ansiMkAux data n args).1
  | [], data, n, h1, h2, h3, _ => ⟨h1, h2, h3⟩
  | .strArg v :: rest, data, n, h1, h2, h3, hargs => by
    have hrest : ∀ t ∈ argAnsis rest, WF t := by
      intro u hu; exact hargs u (by rw [argAnsis_cons_str]; exact hu)
    by_cases hv : v = ""
    · simpa [ansiMkAux, hv] using mkAux_wf rest data n h1 h2 h3 hrest
    · simp only [ansiMkAux, if_neg hv]
      exact mkAux_wf rest _ _ (pushCstr_merged _ _ h1)
        (pushCstr_noempty _ (str_length_ne_zero hv) _ h2)
        (by rw [pushCstr_sumLen, h3]) hrest
  | .cstrArg v :: rest, data, n, h1, h2, h3, hargs => by
    have hrest : ∀ t ∈ argAnsis rest, WF t := by
      intro u hu; exact hargs u (by rw [argAnsis_cons_cstr]; exact hu)
    by_cases hv : v.value = ""
    · simpa [ansiMkAux, hv] using mkAux_wf rest data n h1 h2 h3 hrest
    · simp only [ansiMkAux, if_neg hv]
      exact mkAux_wf rest _ _ (pushCstr_merged _ _ h1)
        (pushCstr_noempty _ (str_length_ne_zero hv) _ h2)
        (by rw [pushCstr_sumLen, h3]) hrest
  | .ansiArg t :: rest, data, n, h1, h2, h3, hargs => by
    have hrest : ∀ u ∈ argAnsis rest, WF u := by
      intro u hu; exact hargs u (by rw [argAnsis_cons_ansi]; exact List.mem_cons_of_mem _ hu)
    by_cases hv : t.length = 0
    · simpa [ansiMkAux, hv] using mkAux_wf rest data n h1 h2 h3 hrest
    · have ht : WF t := hargs t (by rw [argAnsis_cons_ansi]; exact List.mem_cons_self _ _)
      simp only [ansiMkAux, if_neg hv]
      exact mkAux_wf rest _ _ (pushAnsi_merged _ h1 _ ht.1)
        (pushAnsi_noempty _ h2 _ ht.2.1)
        (by rw [pushAnsi_sumLen, h3, ht.2.2]) hrest

lemma mk_wf (args : List Arg) (h : ∀ t ∈ argAnsis args, WF t) : WF (ansiMk args) := by
  have hm := mkAux_wf args [] 0 (by simp [Merged]) (by intro x hx; simp at hx)
    (by simp [sumLen]) h
  exact ⟨hm.1, hm.2.1, hm.2.2⟩

lemma ansiEmpty_wf : WF ansiEmpty :=
  ⟨by simp [Merged, ansiEmpty], by intro x hx; simp [ansiEmpty] at hx, by simp [ansiEmpty, sumLen]⟩

lemma argAnsis_of_cstrArgs {α : Type} (g : α → Cstr) (l : List α) :
    argAnsis (l.map (fun c => .cstrArg (g c))) = [] := by
  induction l with
  | nil => rfl
  | cons c cs ih => simp [argAnsis, List.filterMap_cons]

lemma argAnsis_map_cstr (l : List Cstr) : argAnsis (l.map .cstrArg) = [] := by
  induction l with
  | nil => rfl
  | cons c cs ih => simp [argAnsis, List.filterMap_cons]

lemma sliceNorm_wf (t : AnsiStr) (a b : Nat) : WF (ansiSliceNorm t a b) := by
  rw [ansiSliceNorm]
  split
  · exact ansiEmpty_wf
  · exact mk_wf _ (by simp [argAnsis_map_cstr])

lemma mulAux_wf (t : AnsiStr) : ∀ k, WF (mulAux t k)
  | 0 => ansiEmpty_wf
  | k + 1 => mk_wf _ (by
      rw [argAnsis_map_cstr]
      intro u hu
      exact absurd hu (List.not_mem_nil u))

lemma reach_wf {t : AnsiStr} (h : Reach t) : WF t := by
  induction h with
  | mk args h ih => exact mk_wf args ih
  | addR a s ha hs iha ihs =>
    refine mk_wf _ ?_
    intro u hu
    rw [argAnsis_cons_ansi] at hu
    rcases List.mem_cons.mp hu with rfl | hu
    · exact iha
    · exact ihs u hu
  | sliceR a i j ha iha => exact sliceNorm_wf _ _ _
  | idxR a i ha iha =>
    rw [ansiGetInt]
    split <;> exact sliceNorm_wf _ _ _
  | mulR a n ha iha => exact mulAux_wf _ _
  | overR a x ha iha =>
    exact mk_wf _ (by
      rw [argAnsis_of_cstrArgs]
      intro u hu
      exact absurd hu (List.not_mem_nil u))

/-- **C6**: every `AnsiStr` value produced by any sequence of
construction, concatenation, slicing, indexing, repetition and overlay
satisfies the run invariants: no two adjacent runs share a style, and no
stored run has zero codepoints. -/
theorem C6_run_invariants (t : AnsiStr) (h : Reach t) :
    Merged t.data ∧ NoEmpty t.data :=
  ⟨(reach_wf h).1, (reach_wf h).2.1⟩

/-- Witness for C6 at a concrete constructed value. -/
theorem C6_run_invariants_witness :
    Merged (ansiMk [Arg.strArg "ab", Arg.cstrArg ⟨"cd", { bold := true }⟩]).data ∧
    NoEmpty (ansiMk [Arg.strArg "ab", Arg.cstrArg ⟨"cd", { bold := true }⟩]).data :=
  C6_run_invariants _ (Reach.mk _ (by intro u hu; exact absurd hu (List.not_mem_nil u)))

/-! ### Slice lemmas (for C8, C10) -/

lemma pushCstr_no_merge : ∀ (l : List Cstr) (c : Cstr),
    (∀ (h : l ≠ []), (l.getLast h).style ≠ c.style) → pushCstr l c = l ++ [c]
  | [], c, _ => rfl
  | [d], c, h => by
    have hd := h (by simp)
    simp only [List.getLast_singleton] at hd
    simp [pushCstr, hd]
  | d :: e :: es, c, h => by
    have hrec : pushCstr (e :: es) c = (e :: es) ++ [c] := by
      apply pushCstr_no_merge
      intro _
      have := h (by simp)
      rwa [List.getLast_cons (by simp)] at this
    show d :: pushCstr (e :: es) c = _
    rw [hrec]
    simp

lemma mkAux_cstrs : ∀ (l : List Cstr) (data : List Cstr) (n : Nat),
    Merged (data ++ l) → NoEmpty l →
    ansiMkAux data n (l.map .cstrArg) = (data ++ l, n + sumLen l)
  | [], data, n, _, _ => by simp [ansiMkAux, sumLen]
  | c :: cs, data, n, hm, hne => by
    have hc0 : c.value.length ≠ 0 := hne c (by simp)
    have hc : c.value ≠ "" := by
      intro he
      rw [he] at hc0
      exact hc0 rfl
    have hpush : pushCstr data c = data ++ [c] := by
      apply pushCstr_no_merge
      intro hd
      have hbound := (List.chain'_append.mp hm).2.2
      have := hbound (data.getLast hd) (by rw [List.getLast?_eq_getLast data hd]; rfl) c rfl
      exact this
    have hm2 : Merged ((data ++ [c]) ++ cs) := by
      rw [List.append_assoc]
      simpa using hm
    have hne2 : NoEmpty cs := fun y hy => hne y (by simp [hy])
    have ih := mkAux_cstrs cs (data ++ [c]) (n + c.value.length) hm2 hne2
    show ansiMkAux data n (.cstrArg c :: cs.map .cstrArg) = _
    rw [show ansiMkAux data n (.cstrArg c :: cs.map .cstrArg)
        = ansiMkAux (pushCstr data c) (n + c.value.length) (cs.map .cstrArg) by
      simp [ansiMkAux, hc]]
    rw [hpush, ih]
    have h1 : (data ++ [c]) ++ cs = data ++ c :: cs := by simp
    rw [h1, Prod.mk.injEq]
    refine ⟨rfl, ?_⟩
    simp [sumLen]
    omega

lemma mk_of_merged (l : List Cstr) (hm : Merged l) (hne : NoEmpty l) :
    ansiMk (l.map .cstrArg) = ⟨l, sumLen l⟩ := by
  have h := mkAux_cstrs l [] 0 (by simpa using hm) hne
  simp [ansiMk, h]

lemma strSub_all (s : String) (b : Nat) (hb : s.length ≤ b) : strSub s 0 b = s := by
  cases s with
  | mk data =>
    simp only [strSub, List.drop_zero]
    rw [List.take_of_length_le hb]

lemma sumLen_cons (c : Cstr) (cs : List Cstr) :
    sumLen (c :: cs) = c.value.length + sumLen cs := by
  simp [sumLen]

lemma sumLen_pos_of_noempty (c : Cstr) (cs : List Cstr) (hne : NoEmpty (c :: cs)) :
    0 < sumLen (c :: cs) := by
  have := hne c (by simp)
  rw [sumLen_cons]
  omega

lemma sliceTake_all : ∀ (l : List Cstr), NoEmpty l → ∀ st : Int, st ≤ 0 →
    ∀ sp : Int, (sumLen l : Int) ≤ sp → sliceTake l st sp = l
  | [], _, _, _, _, _ => rfl
  | c :: cs, hne, st, hst, sp, hsp => by
    have hc : c.value.length ≠ 0 := hne c (by simp)
    rw [sumLen_cons] at hsp
    push_cast at hsp
    have hpos : sp > 0 := by omega
    rw [sliceTake, if_pos hpos]
    have hb : c.value.length ≤ sp.toNat := by omega
    have hmax : (max 0 st).toNat = 0 := by omega
    rw [hmax, strSub_all c.value sp.toNat hb]
    have ih := sliceTake_all cs (fun y hy => hne y (by simp [hy]))
      (st - c.value.length) (by omega) (sp - c.value.length) (by omega)
    rw [ih]

/-- **C8**: slicing a styled string over its full range is the identity,
and any slice whose normalized start is at least its normalized stop is
the empty styled string. -/
theorem C8_slice_identity (t : AnsiStr) (h : WF t) :
    ansiGetSlice t 0 (t.length : Int) = t ∧
    ∀ a b : Int, pyBound b t.length ≤ pyBound a t.length →
      ansiGetSlice t a b = ansiEmpty := by
  obtain ⟨data, len⟩ := t
  obtain ⟨hm, hne, hlen⟩ := h
  simp only at hm hne hlen
  constructor
  · cases data with
    | nil =>
      simp [sumLen] at hlen
      subst hlen
      rfl
    | cons c cs =>
      have hpos : 0 < len := hlen ▸ sumLen_pos_of_noempty c cs hne
      have hb0 : pyBound 0 len = 0 := by simp [pyBound]
      have hbl : pyBound len len = len := by simp [pyBound]
      show ansiSliceNorm ⟨c :: cs, len⟩ (pyBound 0 len) (pyBound len len) = _
      rw [hb0, hbl, ansiSliceNorm]
      rw [if_neg (by omega)]
      have hskip : sliceSkip (c :: cs) (((0 : Nat) : Int)) ((len : Nat) : Int)
          = (c :: cs, ((0 : Nat) : Int), ((len : Nat) : Int)) := by
        rw [sliceSkip, if_neg (by omega)]
      rw [hskip]
      have htake : sliceTake (c :: cs) (((0 : Nat) : Int)) ((len : Nat) : Int) = c :: cs :=
        sliceTake_all (c :: cs) hne _ (by omega) _ (by omega)
      simp only [htake]
      rw [mk_of_merged (c :: cs) hm hne, hlen]
  · intro a b hab
    show ansiSliceNorm ⟨data, len⟩ (pyBound a len) (pyBound b len) = _
    rw [ansiSliceNorm, if_pos hab]

/-- A concrete well-formed two-run value used by the witnesses. -/
def t0c : AnsiStr := ⟨[⟨"ab", {}⟩, ⟨"c", { bold := true }⟩], 3⟩

lemma t0c_wf : WF t0c := by
  refine ⟨?_, ?_, rfl⟩
  · exact List.chain'_cons.mpr ⟨by decide, List.chain'_singleton _⟩
  · intro c hc
    simp [t0c] at hc
    rcases hc with rfl | rfl <;> decide

/-- Witness for C8: the slice laws applied at a concrete value. -/
theorem C8_slice_identity_witness :
    WF t0c ∧ ansiGetSlice t0c 0 (t0c.length : Int) = t0c ∧
      ansiGetSlice t0c 2 1 = ansiEmpty :=
  ⟨t0c_wf, (C8_slice_identity t0c t0c_wf).1,
    (C8_slice_identity t0c t0c_wf).2 2 1 (by decide)⟩

/-! ### Single-index lemmas (for C10) -/

/-- Reference function: the codepoint at index `j` of a run list together
with the style of the run holding it. -/
def charStyleAt : List Cstr → Nat → Option (Char × Style)
  | [], _ => none
  | c :: cs, j =>
    match c.value.data.get? j with
    | some ch => some (ch, c.style)
    | none => charStyleAt cs (j - c.value.length)

/-- Python index normalization for sequence indexing: a negative index
counts from the end. -/
def pyNormIdx (i : Int) (n : Nat) : Nat :=
  if i < 0 then ((n : Int) + i).toNat else i.toNat

/-- The else-branch of `__getitem__` specialized to the one-character
slice `[j, j + 1)`. -/
def sliceOne (data : List Cstr) (j : Nat) : AnsiStr :=
  let p := sliceSkip data (j : Int) ((j : Int) + 1)
  ansiMk ((sliceTake p.1 p.2.1 p.2.2).map .cstrArg)

lemma sliceNorm_eq_sliceOne (t : AnsiStr) (j : Nat) :
    ansiSliceNorm t j (j + 1) = sliceOne t.data j := by
  rw [ansiSliceNorm, if_neg (by omega), sliceOne]
  norm_cast

lemma take_drop_singleton : ∀ (l : List Char) (j : Nat) (h : j < l.length),
    (l.take (j + 1)).drop j = [l.get ⟨j, h⟩]
  | a :: l, 0, _ => by simp
  | a :: l, j + 1, h => by
    have ih := take_drop_singleton l j (by simpa using h)
    simpa [List.take_succ_cons, List.drop_succ_cons] using ih

lemma singleton_ne_empty (ch : Char) : String.singleton ch ≠ "" := by
  intro h
  have h2 : (String.singleton ch).data = ("" : String).data := congrArg _ h
  simp [String.singleton] at h2

lemma ansiMk_single (x : Cstr) (hx : x.value ≠ "") :
    ansiMk [.cstrArg x] = ⟨[x], x.value.length⟩ := by
  rw [ansiMk]
  have h1 : ansiMkAux [] 0 [.cstrArg x] = ([x], x.value.length) := by
    simp [ansiMkAux, hx, pushCstr]
  rw [h1]

lemma ansiMk_cons_empty_cstr (st : Style) (rest : List Arg) :
    ansiMk (.cstrArg ⟨"", st⟩ :: rest) = ansiMk rest := by
  rw [ansiMk, ansiMk]
  have h1 : ansiMkAux [] 0 (.cstrArg ⟨"", st⟩ :: rest) = ansiMkAux [] 0 rest := by
    simp [ansiMkAux]
  rw [h1]

lemma slice_one_char : ∀ (data : List Cstr) (j : Nat), j < sumLen data →
    ∃ ch st, charStyleAt data j = some (ch, st) ∧
      sliceOne data j = ⟨[⟨String.singleton ch, st⟩], 1⟩
  | [], j, h => by simp [sumLen] at h
  | c :: cs, j, h => by
    rcases Nat.lt_trichotomy j c.value.length with hlt | heq | hgt
    · -- the character is inside `c`: the walk stops here, the fragment is
      -- the one-character slice of `c`, the next fragment is cut by
      -- `stop <= 0`.
      have hjd : j < c.value.data.length := hlt
      refine ⟨c.value.data.get ⟨j, hjd⟩, c.style, ?_, ?_⟩
      · rw [charStyleAt, List.get?_eq_get hjd]
      · rw [sliceOne]
        have hskip : sliceSkip (c :: cs) (j : Int) ((j : Int) + 1)
            = (c :: cs, (j : Int), (j : Int) + 1) := by
          rw [sliceSkip, if_neg (by omega)]
        rw [hskip]
        have htake : sliceTake (c :: cs) (j : Int) ((j : Int) + 1)
            = [⟨strSub c.value j (j + 1), c.style⟩] := by
          rw [sliceTake, if_pos (by omega)]
          have h1 : (max 0 (j : Int)).toNat = j := by omega
          have h2 : ((j : Int) + 1).toNat = j + 1 := by omega
          rw [h1, h2]
          rw [show sliceTake cs ((j : Int) - c.value.length)
              ((j : Int) + 1 - c.value.length) = [] by
            cases cs with
            | nil => rfl
            | cons d ds => rw [sliceTake, if_neg (by omega)]]
        rw [htake]
        have hfrag : strSub c.value j (j + 1) = String.singleton (c.value.data.get ⟨j, hjd⟩) := by
          simp only [strSub, take_drop_singleton c.value.data j hjd]
          rfl
        rw [hfrag]
        rw [List.map_cons, List.map_nil,
          ansiMk_single _ (singleton_ne_empty (c.value.data.get ⟨j, hjd⟩))]
        rfl
    · -- `j` is exactly the end of `c`: the walk still stops here, the
      -- fragment from `c` is empty (skipped by the constructor) and the
      -- character is the first one of the rest.
      have hcs : 0 < sumLen cs := by
        rw [sumLen_cons] at h
        omega
      obtain ⟨ch, st, hat, hone⟩ := slice_one_char cs 0 hcs
      refine ⟨ch, st, ?_, ?_⟩
      · have hdl : c.value.data.length = c.value.length := rfl
        rw [charStyleAt, List.get?_eq_none.mpr (by omega), heq]
        simpa using hat
      · rw [sliceOne]
        have hskip : sliceSkip (c :: cs) (j : Int) ((j : Int) + 1)
            = (c :: cs, (j : Int), (j : Int) + 1) := by
          rw [sliceSkip, if_neg (by omega)]
        rw [hskip]
        have htake : sliceTake (c :: cs) (j : Int) ((j : Int) + 1)
            = ⟨strSub c.value j (j + 1), c.style⟩
              :: sliceTake cs (((0 : Nat) : Int)) (((0 : Nat) : Int) + 1) := by
          rw [sliceTake, if_pos (by omega)]
          have h1 : (max 0 (j : Int)).toNat = j := by omega
          have h2 : ((j : Int) + 1).toNat = j + 1 := by omega
          have h3 : (j : Int) - c.value.length = ((0 : Nat) : Int) := by omega
          have h4 : (j : Int) + 1 - c.value.length = ((0 : Nat) : Int) + 1 := by omega
          rw [h1, h2, h3, h4]
        rw [htake]
        have hdl : c.value.data.length = c.value.length := rfl
        have hempty : strSub c.value j (j + 1) = "" := by
          have hd : (List.take (j + 1) c.value.data).drop j = [] :=
            List.drop_eq_nil_of_le (by rw [List.length_take]; omega)
          simp only [strSub, hd]
        rw [hempty, List.map_cons, ansiMk_cons_empty_cstr]
        have hrest : sliceSkip cs (((0 : Nat) : Int)) ((((0 : Nat)) : Int) + 1)
            = (cs, ((0 : Nat) : Int), ((0 : Nat) : Int) + 1) := by
          cases cs with
          | nil => rfl
          | cons d ds => rw [sliceSkip, if_neg (by omega)]
        rw [sliceOne, hrest] at hone
        exact hone
    · -- the walk skips `c` entirely.
      have h' : j - c.value.length < sumLen cs := by
        rw [sumLen_cons] at h
        omega
      obtain ⟨ch, st, hat, hone⟩ := slice_one_char cs (j - c.value.length) h'
      refine ⟨ch, st, ?_, ?_⟩
      · have hdl : c.value.data.length = c.value.length := rfl
        rw [charStyleAt, List.get?_eq_none.mpr (by omega)]
        exact hat
      · rw [sliceOne]
        have hskip1 : sliceSkip (c :: cs) (j : Int) ((j : Int) + 1)
            = sliceSkip cs ((j : Int) - c.value.length) ((j : Int) + 1 - c.value.length) := by
          rw [sliceSkip, if_pos (by omega)]
        have hc1 : (j : Int) - c.value.length = ((j - c.value.length : Nat) : Int) := by omega
        have hc2 : (j : Int) + 1 - c.value.length = ((j - c.value.length : Nat) : Int) + 1 := by omega
        rw [hskip1, hc1, hc2]
        rw [sliceOne] at hone
        exact hone

lemma charStyleAt_content : ∀ (data : List Cstr) (j : Nat) (ch : Char) (st : Style),
    charStyleAt data j = some (ch, st) → (valuesStr data).data.get? j = some ch
  | [], j, ch, st, h => by simp [charStyleAt] at h
  | c :: cs, j, ch, st, h => by
    rw [charStyleAt] at h
    cases hget : c.value.data.get? j with
    | some ch' =>
      rw [hget] at h
      simp only [Option.some.injEq, Prod.mk.injEq] at h
      have hj : j < c.value.data.length := List.get?_eq_some.mp hget |>.1
      rw [show valuesStr (c :: cs) = c.value ++ valuesStr cs from rfl,
        String.data_append, List.get?_append hj, hget, h.1]
    | none =>
      rw [hget] at h
      have hj : c.value.data.length ≤ j := List.get?_eq_none.mp hget
      have ih := charStyleAt_content cs (j - c.value.length) ch st h
      rw [show valuesStr (c :: cs) = c.value ++ valuesStr cs from rfl,
        String.data_append, List.get?_append_right hj]
      exact ih

/-- **C10**: integer indexing `t[i]`.  For an in-range `i` (including the
specially handled `-1`) the result is a one-codepoint styled string whose
character is the `i`-th codepoint of `content(t)` carrying that
codepoint's run style; for an out-of-range `i` the result is the empty
styled string rather than an error. -/
theorem C10_int_indexing (t : AnsiStr) (h : WF t) (i : Int) :
    (-(t.length : Int) ≤ i ∧ i < (t.length : Int) →
      ∃ ch st, charStyleAt t.data (pyNormIdx i t.length) = some (ch, st) ∧
        ansiGetInt t i = ⟨[⟨String.singleton ch, st⟩], 1⟩ ∧
        (t.content).data.get? (pyNormIdx i t.length) = some ch) ∧
    ((i < -(t.length : Int) ∨ (t.length : Int) ≤ i) → ansiGetInt t i = ansiEmpty) := by
  obtain ⟨hm, hne, hlen⟩ := h
  constructor
  · rintro ⟨hlo, hhi⟩
    have hj : pyNormIdx i t.length < t.length := by
      unfold pyNormIdx
      split <;> omega
    have hnorm : ansiGetInt t i = ansiSliceNorm t (pyNormIdx i t.length) (pyNormIdx i t.length + 1) := by
      rw [ansiGetInt]
      by_cases hi1 : i = -1
      · rw [if_pos hi1]
        have h1 : pyBound (-1) t.length = pyNormIdx i t.length := by
          unfold pyBound pyNormIdx
          split_ifs <;> omega
        have h2 : t.length = pyNormIdx i t.length + 1 := by
          unfold pyNormIdx
          split <;> omega
        rw [h1]
        exact congrArg (ansiSliceNorm t _) h2
      · rw [if_neg hi1]
        have h1 : pyBound i t.length = pyNormIdx i t.length := by
          unfold pyBound pyNormIdx
          split_ifs <;> omega
        have h2 : pyBound (i + 1) t.length = pyNormIdx i t.length + 1 := by
          unfold pyBound pyNormIdx
          split_ifs <;> omega
        rw [h1, h2]
    rw [hnorm, sliceNorm_eq_sliceOne]
    obtain ⟨ch, st, hat, hone⟩ := slice_one_char t.data (pyNormIdx i t.length) (by omega)
    exact ⟨ch, st, hat, hone, by rw [content_eq]; exact charStyleAt_content _ _ _ _ hat⟩
  · intro hout
    rw [ansiGetInt]
    by_cases hi1 : i = -1
    · rw [if_pos hi1]
      have hn0 : t.length = 0 := by omega
      rw [ansiSliceNorm, if_pos (by omega)]
    · rw [if_neg hi1]
      have hge : pyBound i t.length ≥ pyBound (i + 1) t.length := by
        unfold pyBound
        split_ifs <;> omega
      rw [ansiSliceNorm, if_pos hge]

/-- Witness for C10: indexing a concrete well-formed value in range. -/
theorem C10_int_indexing_witness :
    ∃ ch st, charStyleAt t0c.data (pyNormIdx 2 t0c.length) = some (ch, st) ∧
      ansiGetInt t0c 2 = ⟨[⟨String.singleton ch, st⟩], 1⟩ ∧
      (t0c.content).data.get? (pyNormIdx 2 t0c.length) = some ch :=
  (C10_int_indexing t0c t0c_wf 2).1 (by decide)

/-! ### Grid write lemmas (for C3) -/

/-- How far the write cursor advances over a source string: 2 cells per
width-2 character, 1 cell per anything else (lines 369-372). -/
def advance (s : List Char) : Nat :=
  (s.map (fun c => if wcwidthChar c = 2 then 2 else 1)).sum

lemma advance_pos {s : List Char} (hs : s ≠ []) : 1 ≤ advance s := by
  cases s with
  | nil => exact absurd rfl hs
  | cons c cs =>
    simp only [advance, List.map_cons, List.sum_cons]
    split_ifs <;> omega

lemma listSet_eq_some {l : List Cell} {i : Nat} {a : Cell} {l' : List Cell}
    (h : listSet l i a = some l') : i < l.length ∧ l' = l.set i a := by
  rw [listSet] at h
  by_cases hi : i < l.length
  · rw [if_pos hi] at h
    exact ⟨hi, (Option.some.inj h).symm⟩
  · rw [if_neg hi] at h
    exact absurd h (by simp)

lemma listSet_some {l : List Cell} {i : Nat} (a : Cell) (hi : i < l.length) :
    listSet l i a = some (l.set i a) := by
  rw [listSet, if_pos hi]

lemma getD_set_ne (l : List Cell) (i j : Nat) (a : Cell) (h : i ≠ j) :
    (l.set i a).getD j none = l.getD j none := by
  rw [List.getD_eq_getElem?_getD, List.getD_eq_getElem?_getD, List.getElem?_set_ne h]

lemma getD_set_self (l : List Cell) (i : Nat) (a : Cell) (h : i < l.length) :
    (l.set i a).getD i none = a := by
  rw [List.getD_eq_getElem?_getD]
  simp [List.getElem?_set, h]

lemma getD_some_lt {l : List Cell} {j : Nat} {x : Cstr}
    (h : l.getD j none = some x) : j < l.length := by
  by_contra hj
  rw [List.getD_eq_getElem?_getD, List.getElem?_eq_none (by omega)] at h
  exact Option.noConfusion h

lemma growLine_length (line : List Cell) (n : Nat) :
    n + 1 ≤ (growLine line n).length := by
  simp only [growLine, List.length_append, List.length_replicate]
  omega

lemma writeChars_spec : ∀ (s : List Char) (line : List Cell) (dest : Nat)
    (line' : List Cell) (dest' : Nat),
    writeChars line dest s = some (line', dest') →
    line'.length = line.length ∧ dest' = dest + advance s ∧
      ∀ j, j < dest ∨ dest' ≤ j → line'.getD j none = line.getD j none
  | [], line, dest, line', dest', h => by
    rw [writeChars] at h
    obtain ⟨h1, h2⟩ := Prod.mk.injEq .. ▸ Option.some.inj h
    subst h1
    subst h2
    exact ⟨rfl, by simp [advance], fun j _ => rfl⟩
  | c :: cs, line, dest, line', dest', h => by
    rw [writeChars] at h
    simp only [Option.bind_eq_bind] at h
    cases h1 : listSet line dest (some { value := String.singleton c }) with
    | none => rw [h1] at h; exact absurd h (by simp)
    | some line1 =>
      rw [h1, Option.some_bind] at h
      obtain ⟨hd1, he1⟩ := listSet_eq_some h1
      by_cases hw : wcwidthChar c = 2
      · rw [if_pos hw] at h
        cases h2 : listSet line1 (dest + 1) (some placeholderC) with
        | none => rw [h2] at h; exact absurd h (by simp)
        | some line2 =>
          rw [h2, Option.some_bind] at h
          obtain ⟨hd2, he2⟩ := listSet_eq_some h2
          obtain ⟨ih1, ih2, ih3⟩ := writeChars_spec cs line2 (dest + 2) line' dest' h
          have hlen : line'.length = line.length := by
            rw [ih1, he2, List.length_set, he1, List.length_set]
          have hadv : dest' = dest + advance (c :: cs) := by
            rw [ih2]
            simp only [advance, List.map_cons, List.sum_cons, if_pos hw]
            omega
          refine ⟨hlen, hadv, ?_⟩
          intro j hj
          have hdle : dest + 2 ≤ dest' := by
            have := advance_pos (s := c :: cs) (by simp)
            simp only [advance, List.map_cons, List.sum_cons, if_pos hw] at hadv
            omega
          rw [ih3 j (by omega), he2, getD_set_ne _ _ _ _ (by omega),
            he1, getD_set_ne _ _ _ _ (by omega)]
      · rw [if_neg hw] at h
        obtain ⟨ih1, ih2, ih3⟩ := writeChars_spec cs line1 (dest + 1) line' dest' h
        have hlen : line'.length = line.length := by
          rw [ih1, he1, List.length_set]
        have hadv : dest' = dest + advance (c :: cs) := by
          rw [ih2]
          simp only [advance, List.map_cons, List.sum_cons, if_neg hw]
          omega
        refine ⟨hlen, hadv, ?_⟩
        intro j hj
        have hdle : dest + 1 ≤ dest' := by
          simp only [advance, List.map_cons, List.sum_cons, if_neg hw] at hadv
          omega
        rw [ih3 j (by omega), he1, getD_set_ne _ _ _ _ (by omega)]

lemma placeholder_ne_space : (some placeholderC : Cell) ≠ some spaceC := by decide

/-- **C3**: on a fresh grid, `set(0,0,'abcd')` then `set(0,0,'🟥')`
renders row 0 as `'🟥cd'`; and in every successful line write, when the
cell at the write start is a continuation placeholder (half of a wide
character) the cell one position to its left becomes an explicit space,
and when the cell just after the last written position is a continuation
placeholder it becomes an explicit space. -/
theorem C3_wide_overlap_break :
    ((do
        let g1 ← setGrid [] 0 0 "abcd"
        let g2 ← setGrid g1 0 0 "🟥"
        pure (renderRow (g2.getD 0 []) (gridWidth g2))) = some "🟥cd") ∧
    (∀ (line : List Cell) (col : Nat) (s : List Char) (line' : List Cell),
      s ≠ [] → setLineChars line col s = some line' →
      (1 ≤ col → (growLine line (col + s.length)).getD col none = some placeholderC →
        line'.getD (col - 1) none = some spaceC) ∧
      ((growLine line (col + s.length)).getD (col + advance s) none = some placeholderC →
        line'.getD (col + advance s) none = some spaceC)) := by
  constructor
  · decide
  · intro line col s line' hs hset
    rw [setLineChars] at hset
    simp only [Option.bind_eq_bind] at hset
    set grown := growLine line (col + s.length) with hgrown
    have hglen : col + s.length + 1 ≤ grown.length := growLine_length line (col + s.length)
    have hslen : 1 ≤ s.length := by
      cases s with
      | nil => exact absurd rfl hs
      | cons a l => simp
    have hadv1 : 1 ≤ advance s := advance_pos hs
    by_cases hlead : grown.getD col none = some placeholderC
    case neg =>
      -- no leading fix: the write loop starts from the grown line itself
      rw [if_neg hlead, Option.some_bind] at hset
      cases hw : writeChars grown col s with
      | none => rw [hw] at hset; exact absurd hset (by simp)
      | some p =>
        obtain ⟨line2, dest⟩ := p
        rw [hw, Option.some_bind] at hset
        simp only [] at hset
        obtain ⟨hl2, hd2, hu2⟩ := writeChars_spec s grown col line2 dest hw
        constructor
        · intro _ hp
          exact absurd hp hlead
        · intro htrail
          have hdlt : col + advance s < grown.length := getD_some_lt htrail
          have h2t : line2.getD dest none = some placeholderC := by
            rw [hd2, hu2 (col + advance s) (by omega)]
            exact htrail
          rw [if_pos ⟨by omega, h2t⟩] at hset
          obtain ⟨hd3, he3⟩ := listSet_eq_some hset
          rw [he3, ← hd2, getD_set_self _ _ _ hd3]
    case pos =>
      rw [if_pos hlead] at hset
      by_cases hcol : 1 ≤ col
      case pos =>
        -- the leading fix writes a space at col - 1
        have hpy : pySet grown ((col : Int) - 1) (some spaceC)
            = some (grown.set (col - 1) (some spaceC)) := by
          rw [pySet, if_neg (by omega)]
          rw [show ((col : Int) - 1).toNat = col - 1 by omega]
          exact listSet_some _ (by omega)
        rw [hpy, Option.some_bind] at hset
        cases hw : writeChars (grown.set (col - 1) (some spaceC)) col s with
        | none => rw [hw] at hset; exact absurd hset (by simp)
        | some p =>
          obtain ⟨line2, dest⟩ := p
          rw [hw, Option.some_bind] at hset
          simp only [] at hset
          obtain ⟨hl2, hd2, hu2⟩ := writeChars_spec s _ col line2 dest hw
          have hgslen : (grown.set (col - 1) (some spaceC)).length = grown.length :=
            List.length_set ..
          have h2lead : line2.getD (col - 1) none = some spaceC := by
            rw [hu2 (col - 1) (by omega), getD_set_self _ _ _ (by omega)]
          constructor
          · intro _ _
            -- the final fix (if taken) writes at dest = col + advance s > col - 1
            split_ifs at hset with hfin
            · obtain ⟨hd3, he3⟩ := listSet_eq_some hset
              rw [he3, getD_set_ne _ _ _ _ (by omega)]
              exact h2lead
            · rw [Option.some.inj hset] at h2lead
              exact h2lead
          · intro htrail
            have hdlt : col + advance s < grown.length := getD_some_lt htrail
            have h2t : line2.getD dest none = some placeholderC := by
              rw [hd2, hu2 (col + advance s) (by omega),
                getD_set_ne _ _ _ _ (by omega)]
              exact htrail
            rw [if_pos ⟨by omega, h2t⟩] at hset
            obtain ⟨hd3, he3⟩ := listSet_eq_some hset
            rw [he3, ← hd2, getD_set_self _ _ _ hd3]
      case neg =>
        -- col = 0: Python's `line[-1]` resolves to the last cell
        have hcol0 : col = 0 := by omega
        subst hcol0
        have hpy : pySet grown (((0 : Nat) : Int) - 1) (some spaceC)
            = some (grown.set (grown.length - 1) (some spaceC)) := by
          rw [pySet, if_pos (by omega), if_pos (by omega)]
          rw [show ((grown.length : Int) + (((0 : Nat) : Int) - 1)).toNat
            = grown.length - 1 by omega]
          exact listSet_some _ (by omega)
        rw [hpy, Option.some_bind] at hset
        cases hw : writeChars (grown.set (grown.length - 1) (some spaceC)) 0 s with
        | none => rw [hw] at hset; exact absurd hset (by simp)
        | some p =>
          obtain ⟨line2, dest⟩ := p
          rw [hw, Option.some_bind] at hset
          simp only [] at hset
          obtain ⟨hl2, hd2, hu2⟩ := writeChars_spec s _ 0 line2 dest hw
          have hgslen : (grown.set (grown.length - 1) (some spaceC)).length = grown.length :=
            List.length_set ..
          constructor
          · intro hc _
            exact absurd hc (by omega)
          · intro htrail
            have hdlt : 0 + advance s < grown.length := getD_some_lt htrail
            by_cases hk : grown.length - 1 = 0 + advance s
            · -- the leading fix already wrote a space exactly at the
              -- trailing position; the trailing check then sees a space,
              -- leaves it alone, and the conclusion still holds
              have h2t : line2.getD (0 + advance s) none = some spaceC := by
                rw [hu2 (0 + advance s) (by omega), ← hk,
                  getD_set_self _ _ _ (by omega)]
              split_ifs at hset with hfin
              · exfalso
                have hfin2 := hfin.2
                rw [hd2] at hfin2
                rw [h2t] at hfin2
                exact placeholder_ne_space hfin2.symm
              · rw [Option.some.inj hset] at h2t
                exact h2t
            · have h2t : line2.getD dest none = some placeholderC := by
                rw [hd2, hu2 (0 + advance s) (by omega),
                  getD_set_ne _ _ _ _ (by omega)]
                exact htrail
              rw [if_pos ⟨by omega, h2t⟩] at hset
              obtain ⟨hd3, he3⟩ := listSet_eq_some hset
              rw [he3, ← hd2, getD_set_self _ _ _ hd3]

/-- A grid line holding one wide character, used by the C3 witness. -/
def wline : List Cell := [some ⟨"🟥", {}⟩, some placeholderC]

/-- Witness for C3: writing `'x'` into the right half of the wide
character leaves a space in its left half. -/
theorem C3_wide_overlap_break_witness :
    setLineChars wline 1 ['x'] = some [some spaceC, some ⟨"x", {}⟩, none] ∧
    [some spaceC, some ⟨"x", {}⟩, (none : Cell)].getD 0 none = some spaceC := by
  refine ⟨by decide, ?_⟩
  exact (C3_wide_overlap_break.2 wline 1 ['x'] [some spaceC, some ⟨"x", {}⟩, none]
    (by decide) (by decide)).1 (by decide) (by decide)

end Criaterm
